import Mathlib

/-!
# Shell emulator: the execution engine of `solution.c`

A shallow embedding of the builtin handlers, the pending-process queue and
`execute_command_line`, followed by the properties of the engine.

Conventions of the embedding.

* The queue is a linked list in `malloc`ed memory.  Memory is a list of cells;
  a pointer is `Option Nat` (`none` is `NULL`).  A cell is `some node` while it
  is allocated and `none` once it has been freed.  Dereferencing `NULL` or a
  freed cell is a fault, and every function that dereferences returns an
  `Option` whose `none` is that fault.
* The descriptor table of a process is a list indexed by descriptor number.
  The kernel hands out the lowest free descriptor number.
* The operating system is a record of oracles: whether `open`, `chdir` and
  `getcwd` succeed, the pid returned by each `fork`, the status word `waitpid`
  stores for a pid.
* What a run does is recorded in a log of events in program order.
* Left out: the text written to the streams, the contents of files, the
  working directory, failure of `pipe` and of `malloc`, a limit on the number
  of descriptors.  A forked child is recorded with the descriptor table it has
  once its wiring is done; what it does afterwards reaches the calling process
  only as the status word of `waitpid`.
-/

namespace Shell

/-! ## Operating system model -/

/-- Oracles standing for the answers of the operating system. -/
structure os_model where
  /-- success of the `open` of the redirection file -/
  open_ok : Bool
  /-- success of `chdir` on a path -/
  chdir_ok : String → Bool
  /-- success of `getcwd` -/
  getcwd_ok : Bool
  /-- value returned in the parent by the k-th `fork` of the invocation: the pid
  of the child, or -1 when the call fails -/
  fork_pid : Nat → Int
  /-- status word stored by `waitpid` for a pid -/
  wait_status : Int → Int

/-- C library `isspace` in the C locale. -/
def isspace (c : Char) : Bool :=
  c = ' ' || c = '\t' || c = '\n' || c = '\r' || c.toNat = 11 || c.toNat = 12

/-- Digit loop of `atoi`: accumulates decimal digits, stops at the first other character. -/
def atoi_digits : List Char → Int → Int
  | [], acc => acc
  | c :: cs, acc =>
    if c.isDigit then atoi_digits cs (acc * 10 + ((c.toNat : Int) - 48)) else acc

/-- C library `atoi`: optional white space, optional sign, decimal digits
(values outside the range of `int` are not modelled). -/
def atoi (s : String) : Int :=
  match s.toList.dropWhile isspace with
  | '-' :: r => - atoi_digits r 0
  | '+' :: r => atoi_digits r 0
  | cs => atoi_digits cs 0

/-- Wait-status test `WIFEXITED(status)`, that is `(status & 0x7f) == 0`. -/
def WIFEXITED (status : Int) : Bool := status % 128 == 0

/-- Wait-status field `WEXITSTATUS(status)`, that is `(status & 0xff00) >> 8`. -/
def WEXITSTATUS (status : Int) : Int := (status / 256) % 256

/-! ## Builtin registry (solution.c lines 12-157) -/

def BUILTIN_COMMAND_SUCCESS : Int := 0

def BUILTIN_COMMAND_ERROR : Int := 1

/-- The enum `built_in_command_type`; `NONE` is the value 0.  The member
`BUILTIN_COMMAND_TYPE_COUNT` is never produced and is left out. -/
inductive built_in_command_type
  | CD
  | EXIT
  | PWD
  | TRUE
  | FALSE
  | ECHO
  | NONE
deriving DecidableEq, Repr

/-- Handler `builtin_cd` (lines 29-46); `args[1]` is read with `getD`. -/
def builtin_cd (os : os_model) (args : List String) (arg_count : Nat) : Int :=
  if arg_count > 1 then BUILTIN_COMMAND_ERROR
  else if arg_count < 1 then BUILTIN_COMMAND_ERROR
  else if os.chdir_ok (args.getD 1 "") = false then BUILTIN_COMMAND_ERROR
  else BUILTIN_COMMAND_SUCCESS

/-- Handler `builtin_exit` (lines 48-63): it only computes a code, it does not terminate. -/
def builtin_exit (_os : os_model) (args : List String) (arg_count : Nat) : Int :=
  if arg_count > 1 then BUILTIN_COMMAND_ERROR
  else if arg_count = 0 then BUILTIN_COMMAND_SUCCESS
  else atoi (args.getD 1 "")

/-- Handler `builtin_pwd` (lines 65-81). -/
def builtin_pwd (os : os_model) (_args : List String) (arg_count : Nat) : Int :=
  if arg_count > 0 then BUILTIN_COMMAND_ERROR
  else if os.getcwd_ok then BUILTIN_COMMAND_SUCCESS
  else BUILTIN_COMMAND_ERROR

/-- Handler `builtin_true` (lines 83-89). -/
def builtin_true (_os : os_model) (_args : List String) (_arg_count : Nat) : Int :=
  BUILTIN_COMMAND_SUCCESS

/-- Handler `builtin_false` (lines 91-97). -/
def builtin_false (_os : os_model) (_args : List String) (_arg_count : Nat) : Int :=
  BUILTIN_COMMAND_ERROR

/-- Handler `builtin_echo` (lines 99-121): both branches return success. -/
def builtin_echo (_os : os_model) (_args : List String) (arg_count : Nat) : Int :=
  if arg_count = 0 then BUILTIN_COMMAND_SUCCESS else BUILTIN_COMMAND_SUCCESS

/-- The table `builtin_table` (lines 123-132); entry 0 is `NULL`. -/
def builtin_table : built_in_command_type → Option (os_model → List String → Nat → Int)
  | .NONE => none
  | .CD => some builtin_cd
  | .EXIT => some builtin_exit
  | .PWD => some builtin_pwd
  | .TRUE => some builtin_true
  | .FALSE => some builtin_false
  | .ECHO => some builtin_echo

/-- Function `is_builtin_command` (lines 134-157). -/
def is_builtin_command (exe : String) : built_in_command_type :=
  if exe = "cd" then .CD
  else if exe = "exit" then .EXIT
  else if exe = "pwd" then .PWD
  else if exe = "true" then .TRUE
  else if exe = "false" then .FALSE
  else if exe = "echo" then .ECHO
  else .NONE

/-! ## Pending-process queue (solution.c lines 159-223) -/

/-- The struct `pq_node`. -/
structure pq_node where
  pid : Int
  next : Option Nat
deriving DecidableEq, Repr

/-- The struct `pqueue`. -/
structure pqueue where
  head : Option Nat
  tail : Option Nat
deriving DecidableEq, Repr

/-- Memory holding the queue nodes. -/
abbrev heap := List (Option pq_node)

/-- Read of the cell at an address; `none` when the cell is not allocated. -/
def heap_read (m : heap) (a : Nat) : Option pq_node := (m[a]?).join

/-- Function `new_node` (lines 169-174): `malloc` returns a fresh cell. -/
def new_node (m : heap) (pid : Int) : heap × Nat :=
  (m ++ [some { pid := pid, next := none }], m.length)

/-- Function `new_pqueue` (lines 176-181). -/
def new_pqueue : pqueue := { head := none, tail := none }

/-- Function `push_pqueue` (lines 183-192). -/
def push_pqueue (m : heap) (pq : pqueue) (pid : Int) : Option (heap × pqueue) :=
  let m1 := (new_node m pid).1
  let node := (new_node m pid).2
  match pq.head with
  | none => some (m1, { head := some node, tail := some node })
  | some _ =>
    match pq.tail with
    | none => none
    | some t =>
      match heap_read m1 t with
      | none => none
      | some tl =>
        let m2 := m1.set t (some { tl with next := some node })
        match heap_read m2 t with
        | none => none
        | some tl2 => some (m2, { pq with tail := tl2.next })

/-- Function `pop_queue` (lines 194-206).  Returns the status, the memory, the
queue and the list of pids it called `waitpid` on. -/
def pop_queue (wst : Int → Int) (m : heap) (pq : pqueue) :
    Option (Int × heap × pqueue × List Int) :=
  match pq.head with
  | none => some (-1, m, pq, [])
  | some tmp =>
    match heap_read m tmp with
    | none => none
    | some n =>
      let status := wst n.pid
      let status := if WIFEXITED status then WEXITSTATUS status else status
      some (status, m.set tmp none, { pq with head := n.next }, [n.pid])

/-- Function `free_pqueue` (lines 208-214).  The loop frees one allocated cell
per round, so it is run for at most as many rounds as memory has cells. -/
def free_pqueue : Nat → heap → pqueue → Option (heap × pqueue)
  | 0, m, pq =>
    match pq.head with
    | none => some (m, pq)
    | some _ => none
  | fuel + 1, m, pq =>
    match pq.head with
    | none => some (m, pq)
    | some tmp =>
      match heap_read m tmp with
      | none => none
      | some n => free_pqueue fuel (m.set tmp none) { pq with head := n.next }

/-- The `while` loop of `wait_pqueue` (lines 218-220), with the running
`exitcode` and the pids waited on so far. -/
def wait_loop (wst : Int → Int) : Nat → heap → pqueue → Int → List Int →
    Option (Int × heap × pqueue × List Int)
  | 0, m, pq, exitcode, waited =>
    match pq.head with
    | none => some (exitcode, m, pq, waited)
    | some _ => none
  | fuel + 1, m, pq, exitcode, waited =>
    match pq.head with
    | none => some (exitcode, m, pq, waited)
    | some _ =>
      match pop_queue wst m pq with
      | none => none
      | some (st, m1, pq1, w) => wait_loop wst fuel m1 pq1 st (waited ++ w)

/-- Function `wait_pqueue` (lines 216-223) with an explicit bound on the rounds. -/
def wait_pqueue_fuel (wst : Int → Int) (fuel : Nat) (m : heap) (pq : pqueue) :
    Option (Int × heap × pqueue × List Int) :=
  match wait_loop wst fuel m pq 0 [] with
  | none => none
  | some (exitcode, m1, pq1, waited) =>
    match free_pqueue fuel m1 pq1 with
    | none => none
    | some (m2, pq2) => some (exitcode, m2, pq2, waited)

/-- Function `wait_pqueue` (lines 216-223).  Every round of its loops frees an
allocated cell, so the number of cells of memory bounds the rounds. -/
def wait_pqueue (wst : Int → Int) (m : heap) (pq : pqueue) :
    Option (Int × heap × pqueue × List Int) :=
  wait_pqueue_fuel wst m.length m pq

/-- Pushes a list of pids one after the other. -/
def push_all : heap → pqueue → List Int → Option (heap × pqueue)
  | m, pq, [] => some (m, pq)
  | m, pq, p :: ps =>
    match push_pqueue m pq p with
    | none => none
    | some (m1, pq1) => push_all m1 pq1 ps

/-- The cells of a chain laid out in memory from a pointer `p`: each listed
cell holds its pid and points to the next listed cell, the last one to `q`. -/
def cells_ok (m : heap) : Option Nat → List (Nat × Int) → Option Nat → Prop
  | p, [], q => p = q
  | p, c :: rest, q =>
    p = some c.1 ∧
      ∃ nxt, heap_read m c.1 = some { pid := c.2, next := nxt } ∧ cells_ok m nxt rest q

/-- The queue `pq` holds the pids `l`, oldest first: `head` starts a chain of
distinct cells carrying `l`, and `tail` is the last cell when there is one. -/
def queue_holds (m : heap) (pq : pqueue) (l : List Int) : Prop :=
  ∃ cells : List (Nat × Int),
    cells.map Prod.snd = l ∧ (cells.map Prod.fst).Nodup ∧ cells_ok m pq.head cells none ∧
      ∀ c ∈ cells.getLast?, pq.tail = some c.1

/-- Status that `pop_queue` returns for a status word. -/
def translate_status (w : Int) : Int := if WIFEXITED w then WEXITSTATUS w else w

/-! ## Command lines (parser.h) -/

/-- Modelled from the spec: the struct `command` of parser.h, which is not part
of the sources: the executable, the argv-style argument vector whose first
element is the executable, and the number of arguments after it. -/
structure command where
  exe : String
  args : List String
  arg_count : Nat
deriving DecidableEq, Repr

/-- Modelled from the spec: the struct `expr` of parser.h, which is not part of
the sources: a node is a command or one of the three separators; the sequence
linked through `next` is a list. -/
inductive expr
  | COMMAND (cmd : command)
  | PIPE
  | AND
  | OR
deriving DecidableEq, Repr

/-- Modelled from the spec: the enum `output_type` of parser.h, which is not
part of the sources. -/
inductive output_type
  | STDOUT
  | FILE_NEW
  | FILE_APPEND
deriving DecidableEq, Repr

/-- Modelled from the spec: the struct `command_line` of parser.h, which is not
part of the sources: the expression sequence and the redirection target. -/
structure command_line where
  head : List expr
  out_type : output_type
  out_file : String
deriving DecidableEq, Repr

/-! ## Descriptor tables -/

/-- An open file, as a descriptor slot refers to it. -/
inductive file
  | inherited (fd : Nat)
  | redirect
  | pipe_read (k : Nat)
  | pipe_write (k : Nat)
deriving DecidableEq, Repr

/-- Descriptor table: slot `n` is `some f` when descriptor `n` is open on `f`. -/
abbrev fd_table := List (Option file)

/-- The file a descriptor number refers to, `none` for a number that is not open. -/
def fd_at (t : fd_table) (fd : Int) : Option file :=
  if fd < 0 then none else (t[fd.toNat]?).join

/-- Table with slot `n` replaced. -/
def fd_put (t : fd_table) (n : Nat) (v : Option file) : fd_table :=
  if n < t.length then t.set n v else t ++ List.replicate (n - t.length) none ++ [v]

/-- The lowest descriptor number that is not open. -/
def lowest_free (t : fd_table) : Nat := t.findIdx (fun x => x.isNone)

/-- System call `close`; a number that is not open leaves the table as it is. -/
def sys_close (t : fd_table) (fd : Int) : fd_table :=
  match fd_at t fd with
  | none => t
  | some _ => fd_put t fd.toNat none

/-- System call `dup2` onto a standard slot; when `oldfd` is not open the call
fails and the target slot is left as it is. -/
def sys_dup2 (t : fd_table) (oldfd : Int) (newfd : Nat) : fd_table :=
  match fd_at t oldfd with
  | none => t
  | some f => fd_put t newfd (some f)

/-- System call `dup`: the lowest free number, or -1 when `oldfd` is not open. -/
def sys_dup (t : fd_table) (oldfd : Int) : fd_table × Int :=
  match fd_at t oldfd with
  | none => (t, -1)
  | some f => (fd_put t (lowest_free t) (some f), (lowest_free t : Int))

/-- System call `pipe` for the k-th pipe of the invocation: the read end takes
the lowest free number, the write end the next one (no descriptor limit). -/
def sys_pipe (t : fd_table) (k : Nat) : fd_table × (Int × Int) :=
  let r := lowest_free t
  let t1 := fd_put t r (some (file.pipe_read k))
  let w := lowest_free t1
  (fd_put t1 w (some (file.pipe_write k)), ((r : Int), (w : Int)))

/-- System call `open` of the redirection file: the lowest free number or -1. -/
def sys_open (os : os_model) (t : fd_table) : fd_table × Int :=
  if os.open_ok then (fd_put t (lowest_free t) (some file.redirect), (lowest_free t : Int))
  else (t, -1)

/-! ## The engine (solution.c lines 230-394) -/

/-- A forked child: its descriptor table once it has done its wiring, what it
runs (`NONE` stands for `execvp`) and the command. -/
structure child_process where
  fds : fd_table
  type : built_in_command_type
  cmd : command
deriving DecidableEq, Repr

/-- What the calling process does, in program order. -/
inductive event
  | fork (pos : Nat) (pid : Int) (child : child_process)
  | builtin (pos : Nat) (type : built_in_command_type) (res : Int) (fds : fd_table)
  | wait (pid : Int)
deriving DecidableEq, Repr

/-- Variables of `execute_command_line` that live across the loop, the
descriptor table and memory of the calling process, and the log. -/
structure engine_state where
  fds : fd_table
  mem : heap
  pq : pqueue
  has_prev : Bool
  prev_pipe : Int × Int
  pipes : Nat
  forks : Nat
  log : List event
deriving DecidableEq, Repr

/-- What the child does between `fork` and running its command (lines 289-300
and 325-341, the same in both branches). -/
def child_wiring (t : fd_table) (has_prev will_pipe : Bool) (prev_pipe next_pipe : Int × Int) :
    fd_table :=
  let t := if has_prev then sys_dup2 t prev_pipe.1 0 else t
  let t := if will_pipe then sys_dup2 t next_pipe.2 1 else t
  let t := if has_prev then sys_close (sys_close t prev_pipe.2) prev_pipe.1 else t
  let t := if will_pipe then sys_close (sys_close t next_pipe.2) next_pipe.1 else t
  t

/-- A `fork` and, in the parent, `push_pqueue(pq, pid)` (lines 287-311 and 323-361). -/
def fork_stage (os : os_model) (pos : Nat) (type : built_in_command_type) (cmd : command)
    (will_pipe : Bool) (next_pipe : Int × Int) (s : engine_state) : Option engine_state :=
  let pid := os.fork_pid s.forks
  let child : child_process :=
    { fds := child_wiring s.fds s.has_prev will_pipe s.prev_pipe next_pipe, type := type, cmd := cmd }
  match push_pqueue s.mem s.pq pid with
  | none => none
  | some (m, q) =>
    some { s with mem := m, pq := q, forks := s.forks + 1,
                  log := s.log ++ [event.fork pos pid child] }

/-- Lines 262-275 of the `EXPR_TYPE_COMMAND` branch: the pipe to the next stage
is created when the stage pipes onward, otherwise standard output of the
calling process is pointed at the redirection file when there is one.  Returns
the state and `next_pipe`. -/
def wiring_before (out_file : Int) (will_pipe : Bool) (s : engine_state) :
    engine_state × (Int × Int) :=
  let next_pipe : Int × Int := if will_pipe then (sys_pipe s.fds s.pipes).2 else (0, 0)
  let s1 : engine_state :=
    if will_pipe then { s with fds := (sys_pipe s.fds s.pipes).1, pipes := s.pipes + 1 } else s
  let s2 : engine_state :=
    if will_pipe = false ∧ out_file ≠ -1 then { s1 with fds := sys_dup2 s1.fds out_file 1 }
    else s1
  (s2, next_pipe)

/-- Lines 276-362 of the `EXPR_TYPE_COMMAND` branch: the stage is forked, or a
builtin that neither pipes nor follows a pipe is run in the calling process.
The second component of the result is the argument of `exit` when the
in-process `exit` builtin ended the program. -/
def launch (os : os_model) (pos : Nat) (cmd : command) (will_pipe : Bool)
    (next_pipe : Int × Int) (s : engine_state) : Option (engine_state × Option Int) :=
  let type := is_builtin_command cmd.exe
  if type ≠ built_in_command_type.NONE then
    if will_pipe = true ∨ s.has_prev = true then
      match fork_stage os pos type cmd will_pipe next_pipe s with
      | none => none
      | some s1 => some (s1, none)
    else
      match builtin_table type with
      | none => none
      | some handler =>
        let res := handler os cmd.args cmd.arg_count
        let s1 := { s with log := s.log ++ [event.builtin pos type res s.fds] }
        if type = built_in_command_type.EXIT then some (s1, some res) else some (s1, none)
  else
    match fork_stage os pos type cmd will_pipe next_pipe s with
    | none => none
    | some s1 => some (s1, none)

/-- Lines 363-372 of the `EXPR_TYPE_COMMAND` branch: the previous pipe is closed
in the calling process and the new pipe, when there is one, becomes the
previous pipe. -/
def wiring_after (will_pipe : Bool) (next_pipe : Int × Int) (s : engine_state) : engine_state :=
  let s1 : engine_state :=
    if s.has_prev then
      { s with fds := sys_close (sys_close s.fds s.prev_pipe.1) s.prev_pipe.2 }
    else s
  if will_pipe then { s1 with prev_pipe := next_pipe, has_prev := true } else s1

/-- The flag `will_pipe` (lines 263-268): the node after the command is a `PIPE`. -/
def will_pipe_of (next : Option expr) : Bool := next = some expr.PIPE

/-- The branch for an `EXPR_TYPE_COMMAND` node (lines 260-372); `next` is the
node after it. -/
def command_step (os : os_model) (out_file : Int) (pos : Nat) (cmd : command)
    (next : Option expr) (s : engine_state) : Option (engine_state × Option Int) :=
  let will_pipe : Bool := will_pipe_of next
  match launch os pos cmd will_pipe (wiring_before out_file will_pipe s).2
      (wiring_before out_file will_pipe s).1 with
  | none => none
  | some (s1, some code) => some (s1, some code)
  | some (s1, none) =>
    some (wiring_after will_pipe (wiring_before out_file will_pipe s).2 s1, none)

/-- The call `wait_pqueue(pq)` in the engine: the pids waited on go to the log. -/
def drain (os : os_model) (s : engine_state) : Option (Int × engine_state) :=
  match wait_pqueue os.wait_status s.mem s.pq with
  | none => none
  | some (code, m, q, waited) =>
    some (code, { s with mem := m, pq := q, log := s.log ++ waited.map event.wait })

/-- The `while (e != NULL)` loop (lines 259-384) from the node at position `pos`. -/
def walk (os : os_model) (out_file : Int) :
    List expr → Nat → engine_state → Option (engine_state × Option Int)
  | [], _, s => some (s, none)
  | expr.COMMAND cmd :: rest, pos, s =>
    match command_step os out_file pos cmd rest.head? s with
    | none => none
    | some (s1, some code) => some (s1, some code)
    | some (s1, none) => walk os out_file rest (pos + 1) s1
  | expr.PIPE :: rest, pos, s => walk os out_file rest (pos + 1) s
  | expr.AND :: rest, pos, s =>
    match drain os s with
    | none => none
    | some (_, s1) => walk os out_file rest (pos + 1) s1
  | expr.OR :: rest, pos, s =>
    match drain os s with
    | none => none
    | some (_, s1) => walk os out_file rest (pos + 1) s1

/-- How an invocation ends: it returns a status, or the in-process `exit`
builtin ends the program with a code. -/
inductive outcome
  | returned (res : Int) (s : engine_state)
  | exited (code : Int) (s : engine_state)
deriving DecidableEq, Repr

/-- Lines 233-246: the redirection file is opened according to `out_type`;
the result is the table and `out_file` (-1 for standard output and for an
`open` that fails). -/
def open_out_file (os : os_model) (line : command_line) (fds0 : fd_table) : fd_table × Int :=
  match line.out_type with
  | output_type.STDOUT => (fds0, -1)
  | output_type.FILE_NEW => sys_open os fds0
  | output_type.FILE_APPEND => sys_open os fds0

/-- The state in which the loop starts (lines 247-258): after the redirection
file is opened, standard output and then standard input are duplicated. -/
def start_state (os : os_model) (line : command_line) (fds0 : fd_table) : engine_state :=
  { fds := (sys_dup (sys_dup (open_out_file os line fds0).1 1).1 0).1, mem := [],
    pq := new_pqueue, has_prev := false, prev_pipe := (0, 0), pipes := 0, forks := 0, log := [] }

/-- Function `execute_command_line` (lines 230-394) run on the descriptor
table `fds0` of the calling process.  After the loop the queue is drained, the
two saved descriptors are copied back onto slots 1 and 0, and the redirection
file is closed (lines 385-393). -/
def execute_command_line (os : os_model) (line : command_line) (fds0 : fd_table) :
    Option outcome :=
  let out_file := (open_out_file os line fds0).2
  let t0 := (open_out_file os line fds0).1
  let save_out := (sys_dup t0 1).2
  let save_in := (sys_dup (sys_dup t0 1).1 0).2
  match walk os out_file line.head 0 (start_state os line fds0) with
  | none => none
  | some (s, some code) => some (outcome.exited code s)
  | some (s, none) =>
    match drain os s with
    | none => none
    | some (res, s1) =>
      let t3 := sys_dup2 s1.fds save_out 1
      let t4 := sys_dup2 t3 save_in 0
      let t5 := if out_file ≠ -1 then sys_close t4 out_file else t4
      some (outcome.returned res { s1 with fds := t5 })

/-! ## Vocabulary of the statements -/

/-- Descriptor `p` is open in the calling process and is not an end of the
remembered previous pipe. -/
def open_slot (p : Int) (s : engine_state) : Prop :=
  fd_at s.fds p ≠ none ∧ (s.has_prev = true → s.prev_pipe.1 ≠ p ∧ s.prev_pipe.2 ≠ p)

/-- Standard input of a forked child. -/
def child_process.stdin (c : child_process) : Option file := fd_at c.fds 0

/-- Standard output of a forked child. -/
def child_process.stdout (c : child_process) : Option file := fd_at c.fds 1

/-- A simple command with its arguments. -/
def cmd (exe : String) (rest : List String) : command :=
  { exe := exe, args := exe :: rest, arg_count := rest.length }

/-- The usual table of a process: descriptors 0, 1 and 2 open. -/
def std_fds : fd_table :=
  [some (file.inherited 0), some (file.inherited 1), some (file.inherited 2)]

/-- An operating system in which every call succeeds and every child exits with 0. -/
def calm_os : os_model :=
  { open_ok := true, chdir_ok := fun _ => true, getcwd_ok := true,
    fork_pid := fun k => 100 + k, wait_status := fun _ => 0 }

/-- State in which an invocation ended. -/
def outcome.state : outcome → engine_state
  | outcome.returned _ s => s
  | outcome.exited _ s => s

/-- Status returned to the caller, when the invocation returned. -/
def outcome.status : outcome → Option Int
  | outcome.returned res _ => some res
  | outcome.exited _ _ => none

/-- Code with which the program was ended, when the invocation did not return. -/
def outcome.exit_code : outcome → Option Int
  | outcome.returned _ _ => none
  | outcome.exited code _ => some code

/-- Position of the node an event launches, for the two kinds of launch. -/
def event.launch_pos : event → Option Nat
  | event.fork pos _ _ => some pos
  | event.builtin pos _ _ _ => some pos
  | event.wait _ => none

/-- Standard input with which a stage is launched. -/
def event.stdin : event → Option file
  | event.fork _ _ child => child.stdin
  | event.builtin _ _ _ fds => fd_at fds 0
  | event.wait _ => none

/-- Standard output with which a stage is launched. -/
def event.stdout : event → Option file
  | event.fork _ _ child => child.stdout
  | event.builtin _ _ _ fds => fd_at fds 1
  | event.wait _ => none

/-- Pid of a fork event. -/
def event.fork_pid : event → Option Int
  | event.fork _ pid _ => some pid
  | _ => none

/-- An event without the descriptor tables. -/
inductive action
  | fork (pos : Nat) (pid : Int)
  | builtin (pos : Nat) (type : built_in_command_type) (res : Int)
  | wait (pid : Int)
deriving DecidableEq, Repr

/-- The action of an event. -/
def event.action : event → action
  | event.fork pos pid _ => action.fork pos pid
  | event.builtin pos type res _ => action.builtin pos type res
  | event.wait pid => action.wait pid

/-- The launch event of the node at a position, when there is one. -/
def stage_launch (log : List event) (pos : Nat) : Option event :=
  log.find? (fun ev => ev.launch_pos == some pos)

/-- A node is a `COMMAND`. -/
def expr.is_command : expr → Bool
  | expr.COMMAND _ => true
  | _ => false

/-- The invariant of a command line stated in the data model: the sequence is
not empty, starts and ends with a command, and no two separators are adjacent. -/
def well_formed : List expr → Bool
  | [] => false
  | [e] => e.is_command
  | e :: f :: rest => e.is_command && !f.is_command && well_formed rest

/-- A pipeline: the commands joined by `PIPE` nodes. -/
def pipeline : List command → List expr
  | [] => []
  | [c] => [expr.COMMAND c]
  | c :: d :: rest => expr.COMMAND c :: expr.PIPE :: pipeline (d :: rest)

/-- Command line with the target standard output. -/
def plain_line (es : List expr) : command_line :=
  { head := es, out_type := output_type.STDOUT, out_file := "" }

/-- The line `a | b && c | d`. -/
def two_pipelines : command_line :=
  plain_line [expr.COMMAND (cmd "a" []), expr.PIPE, expr.COMMAND (cmd "b" []), expr.AND,
    expr.COMMAND (cmd "c" []), expr.PIPE, expr.COMMAND (cmd "d" [])]

/-- Memory with one queue node, for pid 42. -/
def one_node_heap : heap := [some { pid := 42, next := none }]

/-- The queue whose only node is the cell 0. -/
def one_node_queue : pqueue := { head := some 0, tail := some 0 }

/-- The line made of the single command `false`. -/
def false_line : command_line := plain_line [expr.COMMAND (cmd "false" [])]

/-- The line made of the single command `true`. -/
def true_line : command_line := plain_line [expr.COMMAND (cmd "true" [])]

/-- The line `exit 1 2`. -/
def exit_two_args : command_line := plain_line [expr.COMMAND (cmd "exit" ["1", "2"])]

/-- The line `exit 7`. -/
def exit_seven : command_line := plain_line [expr.COMMAND (cmd "exit" ["7"])]

/-- The line `a | false | b`: a pipeline of three stages, the middle one a builtin. -/
def three_stage_pipeline : List command := [cmd "a" [], cmd "false" [], cmd "b" []]

/-! ## Memory and queue lemmas -/

theorem heap_read_lt {m : heap} {a : Nat} {n : pq_node} (h : heap_read m a = some n) :
    a < m.length := by
  unfold heap_read at h
  by_contra hlt
  rw [List.getElem?_eq_none (by omega)] at h
  simp at h

theorem heap_read_append_lt (m : heap) (x : Option pq_node) {a : Nat} (h : a < m.length) :
    heap_read (m ++ [x]) a = heap_read m a := by
  unfold heap_read
  rw [List.getElem?_append_left h]

theorem heap_read_append_length (m : heap) (x : Option pq_node) :
    heap_read (m ++ [x]) m.length = x := by
  unfold heap_read
  simp

theorem heap_read_set_ne (m : heap) (v : Option pq_node) {a b : Nat} (h : a ≠ b) :
    heap_read (m.set a v) b = heap_read m b := by
  unfold heap_read
  simp [List.getElem?_set, h]

theorem heap_read_set_eq (m : heap) (v : Option pq_node) {a : Nat} (h : a < m.length) :
    heap_read (m.set a v) a = v := by
  unfold heap_read
  simp [List.getElem?_set, h]

theorem cells_ok_frame {m m1 : heap} :
    ∀ (cells : List (Nat × Int)) (p q : Option Nat),
      (∀ c ∈ cells, heap_read m1 c.1 = heap_read m c.1) →
      cells_ok m p cells q → cells_ok m1 p cells q := by
  intro cells
  induction cells with
  | nil => intro p q _ h; exact h
  | cons c rest ih =>
    intro p q hfr h
    obtain ⟨hp, nxt, hr, hrest⟩ := h
    refine ⟨hp, nxt, ?_, ih nxt q (fun d hd => hfr d (List.mem_cons_of_mem _ hd)) hrest⟩
    rw [hfr c (List.mem_cons_self _ _)]
    exact hr

theorem cells_ok_append {m : heap} :
    ∀ (xs ys : List (Nat × Int)) (p q : Option Nat),
      cells_ok m p (xs ++ ys) q ↔ ∃ r, cells_ok m p xs r ∧ cells_ok m r ys q := by
  intro xs
  induction xs with
  | nil =>
    intro ys p q
    constructor
    · intro h; exact ⟨p, rfl, h⟩
    · rintro ⟨r, hr, h⟩
      have : p = r := hr
      subst this
      exact h
  | cons c rest ih =>
    intro ys p q
    constructor
    · rintro ⟨hp, nxt, hr, h⟩
      obtain ⟨r, h1, h2⟩ := (ih ys nxt q).mp h
      exact ⟨r, ⟨hp, nxt, hr, h1⟩, h2⟩
    · rintro ⟨r, ⟨hp, nxt, hr, h1⟩, h2⟩
      exact ⟨hp, nxt, hr, (ih ys nxt q).mpr ⟨r, h1, h2⟩⟩

theorem cells_ok_lt {m : heap} :
    ∀ (cells : List (Nat × Int)) (p q : Option Nat),
      cells_ok m p cells q → ∀ c ∈ cells, c.1 < m.length := by
  intro cells
  induction cells with
  | nil => intro p q _ c hc; simp at hc
  | cons d rest ih =>
    intro p q h c hc
    obtain ⟨_, nxt, hr, hrest⟩ := h
    rcases List.mem_cons.mp hc with hcd | hcr
    · subst hcd; exact heap_read_lt hr
    · exact ih nxt q hrest c hcr

theorem queue_holds_length_le {m : heap} {pq : pqueue} {l : List Int}
    (h : queue_holds m pq l) : l.length ≤ m.length := by
  obtain ⟨cells, hl, hnd, hok, _⟩ := h
  have hsub : cells.map Prod.fst ⊆ List.range m.length := by
    intro a ha
    obtain ⟨c, hc, rfl⟩ := List.mem_map.mp ha
    exact List.mem_range.mpr (cells_ok_lt cells _ _ hok c hc)
  have := (List.Nodup.subperm hnd hsub).length_le
  simp at this
  rw [← hl]
  simpa using this

theorem queue_holds_new (m : heap) : queue_holds m new_pqueue [] :=
  ⟨[], rfl, List.nodup_nil, rfl, by simp⟩

theorem queue_holds_nil_head {m : heap} {pq : pqueue} (h : queue_holds m pq []) :
    pq.head = none := by
  obtain ⟨cells, hl, _, hok, _⟩ := h
  have : cells = [] := by simpa using hl
  subst this
  exact hok

theorem queue_holds_of_head_none (m : heap) (pq : pqueue) (h : pq.head = none) :
    queue_holds m pq [] :=
  ⟨[], rfl, List.nodup_nil, h, by simp⟩

theorem push_pqueue_spec {m : heap} {pq : pqueue} {l : List Int} (pid : Int)
    (h : queue_holds m pq l) :
    ∃ m1 pq1, push_pqueue m pq pid = some (m1, pq1) ∧ queue_holds m1 pq1 (l ++ [pid]) := by
  obtain ⟨cells, hl, hnd, hok, htail⟩ := h
  rcases List.eq_nil_or_concat cells with hnil | ⟨cs, c, hcs⟩
  · subst hnil
    have hhead : pq.head = none := hok
    refine ⟨(new_node m pid).1, pqueue.mk (some (new_node m pid).2) (some (new_node m pid).2),
      by simp [push_pqueue, hhead], ?_⟩
    refine ⟨[(m.length, pid)], by simp [← hl], by simp, ?_, by simp [new_node]⟩
    refine ⟨by simp [new_node], none, ?_, rfl⟩
    simp [new_node, heap_read_append_length]
  · rw [List.concat_eq_append] at hcs
    subst hcs
    obtain ⟨r, hseg, hlast⟩ := (cells_ok_append cs [c] pq.head none).mp hok
    obtain ⟨hr, nxt, hread, hnxt⟩ := hlast
    have hnxt0 : nxt = none := hnxt
    subst hnxt0
    have htl : pq.tail = some c.1 := htail c (by simp)
    have hclt : c.1 < m.length := heap_read_lt hread
    have hhead : ∃ a, pq.head = some a := by
      cases cs with
      | nil => exact ⟨c.1, by rw [← hr]; exact hseg⟩
      | cons d ds => exact ⟨d.1, hseg.1⟩
    obtain ⟨a, ha⟩ := hhead
    have hnd2 : ∀ d ∈ cs, d.1 ≠ c.1 := by
      intro d hd heq
      rw [List.map_append, List.nodup_append] at hnd
      exact hnd.2.2 (List.mem_map_of_mem _ hd) (by simp [heq])
    have hlen1 : c.1 < (m ++ [some (pq_node.mk pid none)]).length := by
      simp; omega
    have hrd1 : heap_read ((m ++ [some (pq_node.mk pid none)]).set c.1
        (some (pq_node.mk c.2 (some m.length)))) c.1 = some (pq_node.mk c.2 (some m.length)) :=
      heap_read_set_eq _ _ hlen1
    refine ⟨(m ++ [some (pq_node.mk pid none)]).set c.1 (some (pq_node.mk c.2 (some m.length))),
      pqueue.mk pq.head (some m.length), ?_, ?_⟩
    · simp only [push_pqueue, ha, htl, new_node, heap_read_append_lt m _ hclt, hread]
      rw [hrd1]
    refine ⟨cs ++ [c] ++ [(m.length, pid)], by simp [← hl], ?_, ?_, by simp⟩
    · rw [List.map_append, List.nodup_append]
      refine ⟨hnd, by simp, ?_⟩
      intro x hx hx2
      obtain ⟨d, hd, rfl⟩ := List.mem_map.mp hx
      have := cells_ok_lt _ _ _ hok d hd
      simp at hx2
      omega
    · rw [List.append_assoc]
      refine (cells_ok_append cs _ pq.head none).mpr ⟨r, ?_, ?_⟩
      · refine cells_ok_frame cs _ _ ?_ hseg
        intro d hd
        have hdlt : d.1 < m.length := cells_ok_lt _ _ _ hok d (by simp [hd])
        rw [heap_read_set_ne _ _ (Ne.symm (hnd2 d hd)), heap_read_append_lt m _ hdlt]
      · refine ⟨hr, some m.length, hrd1, rfl, none, ?_, rfl⟩
        show heap_read _ m.length = _
        rw [heap_read_set_ne _ _ (by omega), heap_read_append_length]

theorem pop_queue_spec (wst : Int → Int) {m : heap} {pq : pqueue} {x : Int} {xs : List Int}
    (h : queue_holds m pq (x :: xs)) :
    ∃ m1 pq1, pop_queue wst m pq = some (translate_status (wst x), m1, pq1, [x]) ∧
      queue_holds m1 pq1 xs ∧ m1.length = m.length := by
  obtain ⟨cells, hl, hnd, hok, htail⟩ := h
  cases cells with
  | nil => simp at hl
  | cons c rest =>
    obtain ⟨hp, nxt, hread, hrest⟩ := hok
    simp only [List.map_cons, List.cons.injEq] at hl
    obtain ⟨hx, hxs⟩ := hl
    refine ⟨m.set c.1 none, { pq with head := nxt }, ?_, ?_, by simp⟩
    · simp [pop_queue, hp, hread, translate_status, hx]
    · refine ⟨rest, hxs, (List.nodup_cons.mp hnd).2, ?_, ?_⟩
      · refine cells_ok_frame rest _ _ ?_ hrest
        intro d hd
        refine heap_read_set_ne _ _ ?_
        intro heq
        exact (List.nodup_cons.mp hnd).1 (by rw [heq]; exact List.mem_map_of_mem _ hd)
      · intro d hd
        refine htail d ?_
        cases rest with
        | nil => simp at hd
        | cons e es => simpa [List.getLast?_cons_cons] using hd

theorem wait_loop_spec (wst : Int → Int) :
    ∀ (l : List Int) (fuel : Nat) (m : heap) (pq : pqueue) (e : Int) (w : List Int),
      queue_holds m pq l → l.length ≤ fuel →
      ∃ m1 pq1, wait_loop wst fuel m pq e w =
          some ((l.map (fun p => translate_status (wst p))).getLastD e, m1, pq1, w ++ l) ∧
        pq1.head = none ∧ m1.length = m.length := by
  intro l
  induction l with
  | nil =>
    intro fuel m pq e w h _
    have hh := queue_holds_nil_head h
    refine ⟨m, pq, ?_, hh, rfl⟩
    cases fuel <;> simp [wait_loop, hh]
  | cons x xs ih =>
    intro fuel m pq e w h hfuel
    obtain ⟨m1, pq1, hpop, hq1, hlen⟩ := pop_queue_spec wst h
    cases fuel with
    | zero => simp at hfuel
    | succ fuel =>
      obtain ⟨cells, _, _, hok, _⟩ := h
      have hhead : ∃ a, pq.head = some a := by
        cases cells with
        | nil => simp_all
        | cons c rest => exact ⟨c.1, hok.1⟩
      obtain ⟨a, ha⟩ := hhead
      obtain ⟨m2, pq2, hw, hh2, hlen2⟩ :=
        ih fuel m1 pq1 (translate_status (wst x)) (w ++ [x]) hq1 (by simpa using hfuel)
      refine ⟨m2, pq2, ?_, hh2, by omega⟩
      simp only [wait_loop, ha, hpop]
      rw [hw]
      cases xs with
      | nil => simp
      | cons y ys => simp [List.getLastD]

theorem free_pqueue_head_none (fuel : Nat) (m : heap) (pq : pqueue) (h : pq.head = none) :
    free_pqueue fuel m pq = some (m, pq) := by
  cases fuel <;> simp [free_pqueue, h]

theorem wait_pqueue_spec (wst : Int → Int) {m : heap} {pq : pqueue} {l : List Int}
    (h : queue_holds m pq l) :
    ∃ m1 pq1, wait_pqueue wst m pq =
        some ((l.map (fun p => translate_status (wst p))).getLastD 0, m1, pq1, l) ∧
      pq1.head = none ∧ m1.length = m.length := by
  obtain ⟨m1, pq1, hw, hh, hlen⟩ :=
    wait_loop_spec wst l m.length m pq 0 [] h (queue_holds_length_le h)
  refine ⟨m1, pq1, ?_, hh, hlen⟩
  simp [wait_pqueue, wait_pqueue_fuel, hw, free_pqueue_head_none _ _ _ hh]


/-! ## Descriptor table lemmas -/

theorem fd_at_nat (t : fd_table) (n : Nat) : fd_at t (n : Int) = (t[n]?).join := by
  simp [fd_at]

theorem fd_at_neg (t : fd_table) {fd : Int} (h : fd < 0) : fd_at t fd = none := by
  simp [fd_at, h]

theorem fd_at_nonneg {t : fd_table} {fd : Int} {f : file} (h : fd_at t fd = some f) :
    0 ≤ fd := by
  by_contra hneg
  rw [fd_at_neg t (by omega)] at h
  cases h

theorem fd_put_getElem (t : fd_table) (n : Nat) (v : Option file) (m : Nat) :
    ((fd_put t n v)[m]?).join = if m = n then v else (t[m]?).join := by
  unfold fd_put
  by_cases hn : n < t.length
  · simp only [hn, if_true, List.getElem?_set]
    by_cases hm : n = m
    · subst hm; simp [hn]
    · have : ¬ m = n := fun h => hm h.symm
      simp [hm, this]
  · simp only [hn, if_false]
    by_cases hm : m = n
    · subst hm
      have hlen : (t ++ List.replicate (m - t.length) none).length = m := by
        simp; omega
      rw [List.getElem?_append_right (by omega)]
      simp [hlen]
    · simp only [hm, if_false]
      rw [List.append_assoc]
      by_cases hlt : m < t.length
      · rw [List.getElem?_append_left hlt]
      · rw [List.getElem?_append_right (by omega), List.getElem?_eq_none (n := m) (by omega)]
        by_cases hlt2 : m - t.length < n - t.length
        · rw [List.getElem?_append_left (by simpa using hlt2)]
          simp [List.getElem?_replicate, hlt2]
        · rw [List.getElem?_eq_none (by simp; omega)]

theorem fd_at_put (t : fd_table) (n : Nat) (v : Option file) (k : Int) :
    fd_at (fd_put t n v) k = if k = (n : Int) then v else fd_at t k := by
  by_cases hk : k < 0
  · have : ¬ k = (n : Int) := by omega
    simp [fd_at_neg _ hk, this]
  · obtain ⟨m, rfl⟩ := Int.eq_ofNat_of_zero_le (by omega : 0 ≤ k)
    rw [fd_at_nat, fd_at_nat, fd_put_getElem]
    simp

theorem fd_at_lowest_free (t : fd_table) : fd_at t (lowest_free t : Int) = none := by
  rw [fd_at_nat]
  unfold lowest_free
  by_cases h : List.findIdx (fun x => x.isNone) t < t.length
  · have := List.findIdx_getElem (w := h)
    rw [List.getElem?_eq_getElem h]
    simp only [Option.isNone_iff_eq_none] at this
    simp [this]
  · rw [List.getElem?_eq_none (by omega)]
    rfl

theorem fd_at_close (t : fd_table) (fd k : Int) :
    fd_at (sys_close t fd) k = if k = fd then none else fd_at t k := by
  unfold sys_close
  cases h : fd_at t fd with
  | none =>
    by_cases hk : k = fd
    · subst hk; simp [h]
    · simp [hk]
  | some f =>
    have h0 := fd_at_nonneg h
    simp only [fd_at_put, Int.toNat_of_nonneg h0]

theorem fd_at_dup2 (t : fd_table) (oldfd : Int) (newfd : Nat) (k : Int) :
    fd_at (sys_dup2 t oldfd newfd) k =
      if k = (newfd : Int) ∧ fd_at t oldfd ≠ none then fd_at t oldfd else fd_at t k := by
  unfold sys_dup2
  cases h : fd_at t oldfd with
  | none => simp
  | some f => simp [fd_at_put]

theorem fd_at_dup (t : fd_table) (oldfd : Int) (k : Int) :
    fd_at (sys_dup t oldfd).1 k =
      if k = (sys_dup t oldfd).2 ∧ fd_at t oldfd ≠ none then fd_at t oldfd else fd_at t k := by
  unfold sys_dup
  cases h : fd_at t oldfd with
  | none => simp
  | some f => simp [fd_at_put]

theorem sys_dup_free (t : fd_table) (oldfd : Int) {k : Int} (h : fd_at t k ≠ none) :
    k ≠ (sys_dup t oldfd).2 := by
  intro hk
  unfold sys_dup at hk
  cases h2 : fd_at t oldfd with
  | none =>
    simp only [h2] at hk
    subst hk
    exact h (fd_at_neg _ (by omega))
  | some f =>
    simp only [h2] at hk
    subst hk
    exact h (fd_at_lowest_free t)

theorem fd_at_pipe (t : fd_table) (n : Nat) (k : Int) :
    fd_at (sys_pipe t n).1 k =
      if k = (sys_pipe t n).2.2 then some (file.pipe_write n)
      else if k = (sys_pipe t n).2.1 then some (file.pipe_read n) else fd_at t k := by
  simp [sys_pipe, fd_at_put]

theorem sys_pipe_read_free (t : fd_table) (n : Nat) {k : Int} (h : fd_at t k ≠ none) :
    k ≠ (sys_pipe t n).2.1 := by
  intro hk
  simp only [sys_pipe] at hk
  subst hk
  exact h (fd_at_lowest_free t)

theorem sys_pipe_write_free (t : fd_table) (n : Nat) {k : Int} (h : fd_at t k ≠ none) :
    k ≠ (sys_pipe t n).2.2 := by
  intro hk
  simp only [sys_pipe] at hk
  subst hk
  have h1 := fd_at_lowest_free (fd_put t (lowest_free t) (some (file.pipe_read n)))
  rw [fd_at_put] at h1
  split at h1
  · cases h1
  · exact h h1

theorem sys_open_free (os : os_model) (t : fd_table) {k : Int} (h : fd_at t k ≠ none) :
    k ≠ (sys_open os t).2 := by
  intro hk
  unfold sys_open at hk
  by_cases ho : os.open_ok = true
  · simp only [ho, if_true] at hk
    subst hk
    exact h (fd_at_lowest_free t)
  · simp only [ho] at hk
    subst hk
    exact h (fd_at_neg _ (by simp))

theorem fd_at_open (os : os_model) (t : fd_table) (k : Int) :
    fd_at (sys_open os t).1 k =
      if k = (sys_open os t).2 ∧ os.open_ok = true then some file.redirect else fd_at t k := by
  unfold sys_open
  by_cases ho : os.open_ok = true
  · simp [ho, fd_at_put]
  · simp [ho]

/-! ## One step of the engine -/

theorem wiring_before_frame (out_file : Int) (wp : Bool) (s : engine_state) :
    (wiring_before out_file wp s).1.mem = s.mem ∧ (wiring_before out_file wp s).1.pq = s.pq ∧
      (wiring_before out_file wp s).1.has_prev = s.has_prev ∧
      (wiring_before out_file wp s).1.prev_pipe = s.prev_pipe ∧
      (wiring_before out_file wp s).1.forks = s.forks ∧
      (wiring_before out_file wp s).1.log = s.log := by
  unfold wiring_before
  cases wp <;> by_cases h : out_file = -1 <;> simp [h]

theorem wiring_before_piping (out_file : Int) (s : engine_state) :
    (wiring_before out_file true s).1.fds = (sys_pipe s.fds s.pipes).1 ∧
      (wiring_before out_file true s).2 = (sys_pipe s.fds s.pipes).2 := by
  simp [wiring_before]

theorem wiring_before_last (out_file : Int) (s : engine_state) :
    (wiring_before out_file false s).1.fds =
        (if out_file ≠ -1 then sys_dup2 s.fds out_file 1 else s.fds) ∧
      (wiring_before out_file false s).2 = (0, 0) := by
  unfold wiring_before
  by_cases h : out_file = -1 <;> simp [h]

theorem fork_stage_spec (os : os_model) (pos : Nat) (type : built_in_command_type)
    (c : command) (wp : Bool) (np : Int × Int) {s : engine_state} {l : List Int}
    (h : queue_holds s.mem s.pq l) :
    ∃ s1, fork_stage os pos type c wp np s = some s1 ∧
      queue_holds s1.mem s1.pq (l ++ [os.fork_pid s.forks]) ∧
      s1.fds = s.fds ∧ s1.has_prev = s.has_prev ∧ s1.prev_pipe = s.prev_pipe ∧
      s1.pipes = s.pipes ∧ s1.forks = s.forks + 1 ∧
      s1.log = s.log ++ [event.fork pos (os.fork_pid s.forks)
        { fds := child_wiring s.fds s.has_prev wp s.prev_pipe np, type := type, cmd := c }] := by
  obtain ⟨m1, q1, hpush, hq⟩ := push_pqueue_spec (os.fork_pid s.forks) h
  refine ⟨engine_state.mk s.fds m1 q1 s.has_prev s.prev_pipe s.pipes (s.forks + 1)
      (s.log ++ [event.fork pos (os.fork_pid s.forks)
        (child_process.mk (child_wiring s.fds s.has_prev wp s.prev_pipe np) type c)]),
    by simp [fork_stage, hpush], hq, rfl, rfl, rfl, rfl, rfl, rfl⟩

theorem builtin_table_some {type : built_in_command_type}
    (h : type ≠ built_in_command_type.NONE) : ∃ handler, builtin_table type = some handler := by
  cases type <;> simp [builtin_table] at h ⊢

theorem launch_spec (os : os_model) (pos : Nat) (c : command) (wp : Bool) (np : Int × Int)
    {s : engine_state} {l : List Int} (h : queue_holds s.mem s.pq l) :
    ∃ s1 r, launch os pos c wp np s = some (s1, r) ∧
      s1.fds = s.fds ∧ s1.has_prev = s.has_prev ∧ s1.prev_pipe = s.prev_pipe ∧
      s1.pipes = s.pipes ∧
      ((r = none ∧
          (is_builtin_command c.exe = built_in_command_type.NONE ∨ wp = true ∨
            s.has_prev = true) ∧
          queue_holds s1.mem s1.pq (l ++ [os.fork_pid s.forks]) ∧ s1.forks = s.forks + 1 ∧
          s1.log = s.log ++ [event.fork pos (os.fork_pid s.forks)
            { fds := child_wiring s.fds s.has_prev wp s.prev_pipe np,
              type := is_builtin_command c.exe, cmd := c }]) ∨
        (wp = false ∧ s.has_prev = false ∧
          ∃ handler, builtin_table (is_builtin_command c.exe) = some handler ∧
            queue_holds s1.mem s1.pq l ∧ s1.forks = s.forks ∧
            s1.log = s.log ++ [event.builtin pos (is_builtin_command c.exe)
              (handler os c.args c.arg_count) s.fds] ∧
            r = if is_builtin_command c.exe = built_in_command_type.EXIT
              then some (handler os c.args c.arg_count) else none)) := by
  obtain ⟨s1, hf, hq, h1, h2, h3, h4, h5, h6⟩ :=
    fork_stage_spec os pos (is_builtin_command c.exe) c wp np h
  by_cases hty : is_builtin_command c.exe = built_in_command_type.NONE
  · refine ⟨s1, none, ?_, h1, h2, h3, h4, Or.inl ⟨rfl, Or.inl hty, hq, h5, h6⟩⟩
    rw [hty] at hf
    simp [launch, hty, hf]
  · by_cases hfk : wp = true ∨ s.has_prev = true
    · refine ⟨s1, none, ?_, h1, h2, h3, h4, Or.inl ⟨rfl, Or.inr hfk, hq, h5, h6⟩⟩
      simp only [launch, hty, hf]
      simp [hfk]
    · obtain ⟨handler, hh⟩ := builtin_table_some hty
      have hwp : wp = false := by
        cases wp
        · rfl
        · exact absurd (Or.inl rfl) hfk
      have hhp : s.has_prev = false := by
        cases hp : s.has_prev
        · rfl
        · exact absurd (Or.inr hp) hfk
      by_cases hex : is_builtin_command c.exe = built_in_command_type.EXIT
      · refine ⟨engine_state.mk s.fds s.mem s.pq s.has_prev s.prev_pipe s.pipes s.forks
            (s.log ++ [event.builtin pos (is_builtin_command c.exe)
              (handler os c.args c.arg_count) s.fds]),
          some (handler os c.args c.arg_count), ?_, rfl, rfl, rfl, rfl,
          Or.inr ⟨hwp, hhp, handler, hh, h, rfl, rfl, by simp [hex]⟩⟩
        simp only [launch, hh]
        simp [hex, hwp, hhp]
      · refine ⟨engine_state.mk s.fds s.mem s.pq s.has_prev s.prev_pipe s.pipes s.forks
            (s.log ++ [event.builtin pos (is_builtin_command c.exe)
              (handler os c.args c.arg_count) s.fds]), none, ?_, rfl, rfl, rfl, rfl,
          Or.inr ⟨hwp, hhp, handler, hh, h, rfl, rfl, by simp [hex]⟩⟩
        simp only [launch, hh]
        simp [hex, hty, hwp, hhp]

theorem wiring_after_frame (wp : Bool) (np : Int × Int) (s : engine_state) :
    (wiring_after wp np s).mem = s.mem ∧ (wiring_after wp np s).pq = s.pq ∧
      (wiring_after wp np s).pipes = s.pipes ∧ (wiring_after wp np s).forks = s.forks ∧
      (wiring_after wp np s).log = s.log ∧
      (wiring_after wp np s).has_prev = (wp || s.has_prev) ∧
      (wiring_after wp np s).prev_pipe = (if wp then np else s.prev_pipe) ∧
      (wiring_after wp np s).fds =
        (if s.has_prev then sys_close (sys_close s.fds s.prev_pipe.1) s.prev_pipe.2
          else s.fds) := by
  unfold wiring_after
  cases wp <;> cases hp : s.has_prev <;> simp [hp]

theorem drain_spec (os : os_model) {s : engine_state} {l : List Int}
    (h : queue_holds s.mem s.pq l) :
    ∃ s1, drain os s =
        some ((l.map (fun p => translate_status (os.wait_status p))).getLastD 0, s1) ∧
      s1.log = s.log ++ l.map event.wait ∧ s1.pq.head = none ∧ s1.fds = s.fds ∧
      s1.has_prev = s.has_prev ∧ s1.prev_pipe = s.prev_pipe ∧ s1.pipes = s.pipes ∧
      s1.forks = s.forks := by
  obtain ⟨m1, q1, hw, hh, _⟩ := wait_pqueue_spec os.wait_status h
  exact ⟨engine_state.mk s.fds m1 q1 s.has_prev s.prev_pipe s.pipes s.forks
      (s.log ++ l.map event.wait),
    by simp [drain, hw], rfl, hh, rfl, rfl, rfl, rfl, rfl⟩

theorem command_step_spec (os : os_model) (out_file : Int) (pos : Nat) (c : command)
    (next : Option expr) {s : engine_state} {l : List Int} (h : queue_holds s.mem s.pq l) :
    ∃ s1 r ev, command_step os out_file pos c next s = some (s1, r) ∧
      s1.log = s.log ++ [ev] ∧ ev.launch_pos = some pos ∧
      s1.pipes = (wiring_before out_file (will_pipe_of next) s).1.pipes ∧
      s1.fds = (wiring_after (will_pipe_of next) (wiring_before out_file (will_pipe_of next) s).2
        (wiring_before out_file (will_pipe_of next) s).1).fds ∧
      s1.has_prev = (will_pipe_of next || s.has_prev) ∧
      s1.prev_pipe = (if will_pipe_of next then (wiring_before out_file (will_pipe_of next) s).2
        else s.prev_pipe) ∧
      ((r = none ∧
          ev = event.fork pos (os.fork_pid s.forks)
            { fds := child_wiring (wiring_before out_file (will_pipe_of next) s).1.fds s.has_prev
                (will_pipe_of next) s.prev_pipe (wiring_before out_file (will_pipe_of next) s).2,
              type := is_builtin_command c.exe, cmd := c } ∧
          (is_builtin_command c.exe = built_in_command_type.NONE ∨ will_pipe_of next = true ∨
            s.has_prev = true) ∧
          queue_holds s1.mem s1.pq (l ++ [os.fork_pid s.forks]) ∧ s1.forks = s.forks + 1) ∨
        (will_pipe_of next = false ∧ s.has_prev = false ∧
          ∃ handler, builtin_table (is_builtin_command c.exe) = some handler ∧
            ev = event.builtin pos (is_builtin_command c.exe) (handler os c.args c.arg_count)
              (wiring_before out_file (will_pipe_of next) s).1.fds ∧
            queue_holds s1.mem s1.pq l ∧ s1.forks = s.forks ∧
            r = if is_builtin_command c.exe = built_in_command_type.EXIT
              then some (handler os c.args c.arg_count) else none)) := by
  simp only [command_step]
  generalize will_pipe_of next = wp
  obtain ⟨hm, hq, hhp, hpp, hfk, hlog⟩ := wiring_before_frame out_file wp s
  generalize wiring_before out_file wp s = wb at hm hq hhp hpp hfk hlog ⊢
  have h' : queue_holds wb.1.mem wb.1.pq l := by rw [hm, hq]; exact h
  obtain ⟨s1, r, hl, h1, h2, h3, h4, hcase⟩ := launch_spec os pos c wp wb.2 h'
  rw [hhp, hpp, hfk, hlog] at hcase
  rw [hhp] at h2
  rw [hpp] at h3
  rcases hcase with ⟨hr, hor, hq1, hf1, hlog1⟩ | ⟨hwp, hhp0, handler, hh, hq1, hf1, hlog1, hr⟩
  · subst hr
    obtain ⟨am, aq, ap, af, al, ah, app, afd⟩ := wiring_after_frame wp wb.2 s1
    refine ⟨wiring_after wp wb.2 s1, none, event.fork pos (os.fork_pid s.forks)
        (child_process.mk (child_wiring wb.1.fds s.has_prev wp s.prev_pipe wb.2)
          (is_builtin_command c.exe) c),
      by simp only [hl], ?_, rfl, ?_, ?_, ?_, ?_, Or.inl ⟨rfl, rfl, hor, ?_, ?_⟩⟩
    · rw [al, hlog1]
    · rw [ap, h4]
    · rw [afd, (wiring_after_frame _ _ _).2.2.2.2.2.2.2, h1, h2, h3, hhp, hpp]
    · rw [ah, h2]
    · rw [app, h3]
    · rw [am, aq]; exact hq1
    · rw [af, hf1]
  · have hsb : wiring_after wp wb.2 wb.1 = wb.1 := by
      simp [wiring_after, hwp, hhp, hhp0]
    have hs1 : wiring_after wp wb.2 s1 = s1 := by
      simp [wiring_after, hwp, h2, hhp0]
    refine ⟨s1, r, event.builtin pos (is_builtin_command c.exe)
        (handler os c.args c.arg_count) wb.1.fds, ?_, hlog1, rfl, h4, ?_, ?_, ?_, Or.inr
      ⟨hwp, hhp0, handler, hh, rfl, hq1, hf1, hr⟩⟩
    · simp only [hl]
      cases r with
      | none => simp only [hs1]
      | some code => rfl
    · rw [hsb, h1]
    · rw [h2, hwp, hhp0]; rfl
    · rw [h3, hwp]; rfl

theorem open_slot_step {os : os_model} {out_file : Int} {pos : Nat} {c : command}
    {next : Option expr} {s s1 : engine_state} {r : Option Int} {l : List Int} (p : Int)
    (hq : queue_holds s.mem s.pq l) (hp : open_slot p s)
    (hstep : command_step os out_file pos c next s = some (s1, r)) :
    open_slot p s1 ∧ (p ≠ 1 → fd_at s1.fds p = fd_at s.fds p) := by
  obtain ⟨s2, r2, ev, hs, _, _, _, hfds, hhp, hpp, _⟩ :=
    command_step_spec os out_file pos c next hq
  rw [hstep] at hs
  obtain ⟨rfl, rfl⟩ := Prod.mk.injEq _ _ _ _ ▸ Option.some.inj hs
  obtain ⟨hopen, hprev⟩ := hp
  obtain ⟨_, _, fhp, fpp, _, _⟩ := wiring_before_frame out_file (will_pipe_of next) s
  have hafter := (wiring_after_frame (will_pipe_of next)
    (wiring_before out_file (will_pipe_of next) s).2
    (wiring_before out_file (will_pipe_of next) s).1).2.2.2.2.2.2.2
  rw [fhp, fpp] at hafter
  have hval : fd_at s1.fds p =
      fd_at (wiring_before out_file (will_pipe_of next) s).1.fds p := by
    rw [hfds, hafter]
    cases hh : s.has_prev with
    | false => simp
    | true =>
      obtain ⟨h1, h2⟩ := hprev hh
      simp only [if_true, fd_at_close, Ne.symm h1, Ne.symm h2, if_false]
  cases hwp : will_pipe_of next with
  | true =>
    rw [hwp] at hval hhp hpp
    have hb := wiring_before_piping out_file s
    rw [hb.1, fd_at_pipe] at hval
    have n1 := sys_pipe_read_free s.fds s.pipes hopen
    have n2 := sys_pipe_write_free s.fds s.pipes hopen
    simp only [n1, n2, if_false] at hval
    refine ⟨⟨by rw [hval]; exact hopen, ?_⟩, fun _ => hval⟩
    intro _
    rw [hpp, hb.2]
    exact ⟨Ne.symm n1, Ne.symm n2⟩
  | false =>
    rw [hwp] at hval hhp hpp
    have hb := wiring_before_last out_file s
    rw [hb.1] at hval
    have hprev1 : s1.has_prev = true → s1.prev_pipe.1 ≠ p ∧ s1.prev_pipe.2 ≠ p := by
      intro h1
      rw [hpp]
      apply hprev
      rw [hhp] at h1
      simpa using h1
    by_cases ho : out_file = -1
    · simp only [ho, ne_eq, not_true_eq_false, if_false] at hval
      exact ⟨⟨by rw [hval]; exact hopen, hprev1⟩, fun _ => hval⟩
    · simp only [ne_eq, ho, not_false_eq_true, if_true, fd_at_dup2] at hval
      refine ⟨⟨?_, hprev1⟩, ?_⟩
      · rw [hval]
        split
        · next hc => exact hc.2
        · exact hopen
      · intro hp1
        rw [hval]
        have : ¬ (p = ((1 : Nat) : Int) ∧ ¬ fd_at s.fds out_file = none) := by
          intro hc
          exact hp1 (by simpa using hc.1)
        rw [if_neg this]

/-! ## The walk -/

theorem drop_cons_facts {es : List expr} {pos : Nat} {e : expr} {rest : List expr}
    (h : es.drop pos = e :: rest) :
    es[pos]? = some e ∧ es.drop (pos + 1) = rest ∧ rest.head? = es[pos + 1]? := by
  have h1 : es[pos]? = some e := by
    have := congrArg List.head? h
    simpa [List.head?_drop] using this
  have h2 : es.drop (pos + 1) = rest := by
    have := congrArg List.tail h
    simpa [List.tail_drop] using this
  refine ⟨h1, h2, ?_⟩
  rw [← h2, List.head?_drop]

theorem drop_nil_length {es : List expr} {pos : Nat} (h : es.drop pos = [])
    (hle : pos ≤ es.length) : pos = es.length := by
  have := List.drop_eq_nil_iff.mp h
  omega

theorem walk_induct (os : os_model) (out_file : Int) (es : List expr)
    (P : Nat → engine_state → Prop)
    (hcmd : ∀ pos c s s1 r, es[pos]? = some (expr.COMMAND c) → P pos s →
      command_step os out_file pos c es[pos + 1]? s = some (s1, r) → P (pos + 1) s1)
    (hpipe : ∀ pos s, es[pos]? = some expr.PIPE → P pos s → P (pos + 1) s)
    (hsep : ∀ pos s code s1, (es[pos]? = some expr.AND ∨ es[pos]? = some expr.OR) → P pos s →
      drain os s = some (code, s1) → P (pos + 1) s1) :
    ∀ (suffix : List expr) (pos : Nat) (s s1 : engine_state) (r : Option Int),
      es.drop pos = suffix → pos ≤ es.length → P pos s →
      walk os out_file suffix pos s = some (s1, r) →
      ∃ n, P n s1 ∧ (r = none → n = es.length) := by
  intro suffix
  induction suffix with
  | nil =>
    intro pos s s1 r hd hle hP hw
    simp only [walk, Option.some.injEq, Prod.mk.injEq] at hw
    obtain ⟨rfl, rfl⟩ := hw
    exact ⟨pos, hP, fun _ => drop_nil_length hd hle⟩
  | cons e rest ih =>
    intro pos s s1 r hd hle hP hw
    obtain ⟨hpos, hrest, hnext⟩ := drop_cons_facts hd
    have hlt : pos + 1 ≤ es.length := by
      have := (List.getElem?_eq_some.mp hpos).1
      omega
    cases e with
    | COMMAND c =>
      simp only [walk] at hw
      cases hc : command_step os out_file pos c rest.head? s with
      | none => rw [hc] at hw; cases hw
      | some res =>
        obtain ⟨s2, r2⟩ := res
        rw [hc] at hw
        rw [hnext] at hc
        have hP2 := hcmd pos c s s2 r2 hpos hP hc
        cases r2 with
        | some code =>
          simp only [Option.some.injEq, Prod.mk.injEq] at hw
          obtain ⟨rfl, rfl⟩ := hw
          exact ⟨pos + 1, hP2, fun h => by cases h⟩
        | none => exact ih (pos + 1) s2 s1 r hrest hlt hP2 hw
    | PIPE =>
      simp only [walk] at hw
      exact ih (pos + 1) s s1 r hrest hlt (hpipe pos s hpos hP) hw
    | AND =>
      simp only [walk] at hw
      cases hd2 : drain os s with
      | none => rw [hd2] at hw; cases hw
      | some res =>
        obtain ⟨code, s2⟩ := res
        rw [hd2] at hw
        exact ih (pos + 1) s2 s1 r hrest hlt (hsep pos s code s2 (Or.inl hpos) hP hd2) hw
    | OR =>
      simp only [walk] at hw
      cases hd2 : drain os s with
      | none => rw [hd2] at hw; cases hw
      | some res =>
        obtain ⟨code, s2⟩ := res
        rw [hd2] at hw
        exact ih (pos + 1) s2 s1 r hrest hlt (hsep pos s code s2 (Or.inr hpos) hP hd2) hw

theorem drain_queue {os : os_model} {s s1 : engine_state} {code : Int} {l : List Int}
    (hq : queue_holds s.mem s.pq l) (hd : drain os s = some (code, s1)) :
    queue_holds s1.mem s1.pq [] ∧ s1.log = s.log ++ l.map event.wait ∧ s1.fds = s.fds ∧
      s1.has_prev = s.has_prev ∧ s1.prev_pipe = s.prev_pipe ∧ s1.pipes = s.pipes ∧
      s1.forks = s.forks ∧
      code = (l.map (fun p => translate_status (os.wait_status p))).getLastD 0 := by
  obtain ⟨s2, hs, hlog, hh, h1, h2, h3, h4, h5⟩ := drain_spec os hq
  rw [hd] at hs
  simp only [Option.some.injEq, Prod.mk.injEq] at hs
  obtain ⟨rfl, rfl⟩ := hs
  exact ⟨queue_holds_of_head_none _ _ hh, hlog, h1, h2, h3, h4, h5, rfl⟩

theorem walk_total (os : os_model) (out_file : Int) :
    ∀ (suffix : List expr) (pos : Nat) (s : engine_state),
      (∃ l, queue_holds s.mem s.pq l) →
      ∃ s1 r, walk os out_file suffix pos s = some (s1, r) ∧ ∃ l, queue_holds s1.mem s1.pq l := by
  intro suffix
  induction suffix with
  | nil => intro pos s hq; exact ⟨s, none, rfl, hq⟩
  | cons e rest ih =>
    intro pos s hq
    obtain ⟨l, hl⟩ := hq
    have hsep : ∃ s1 r, (match drain os s with
        | none => none
        | some (_, s2) => walk os out_file rest (pos + 1) s2) = some (s1, r) ∧
        ∃ l, queue_holds s1.mem s1.pq l := by
      obtain ⟨s2, hs, _, hh, _⟩ := drain_spec os hl
      rw [hs]
      exact ih (pos + 1) s2 ⟨[], queue_holds_of_head_none _ _ hh⟩
    cases e with
    | COMMAND c =>
      obtain ⟨s2, r2, ev, hs, _, _, _, _, _, _, hcase⟩ :=
        command_step_spec os out_file pos c rest.head? hl
      have hq2 : ∃ l, queue_holds s2.mem s2.pq l := by
        rcases hcase with ⟨_, _, _, h, _⟩ | ⟨_, _, _, _, _, h, _⟩
        · exact ⟨_, h⟩
        · exact ⟨_, h⟩
      simp only [walk, hs]
      cases r2 with
      | some code => exact ⟨s2, some code, rfl, hq2⟩
      | none => exact ih (pos + 1) s2 hq2
    | PIPE =>
      simp only [walk]
      exact ih (pos + 1) s ⟨l, hl⟩
    | AND => simpa only [walk] using hsep
    | OR => simpa only [walk] using hsep

/-! ## The queue: claims C5 and C6 -/

theorem one_node_queue_holds : queue_holds one_node_heap one_node_queue [42] :=
  ⟨[(0, 42)], rfl, by simp, ⟨rfl, none, rfl, rfl⟩, by simp [one_node_queue]⟩

theorem push_all_spec :
    ∀ (hs : List Int) (m : heap) (pq : pqueue) (l : List Int), queue_holds m pq l →
      ∃ m1 pq1, push_all m pq hs = some (m1, pq1) ∧ queue_holds m1 pq1 (l ++ hs) := by
  intro hs
  induction hs with
  | nil => intro m pq l h; exact ⟨m, pq, rfl, by simpa using h⟩
  | cons p ps ih =>
    intro m pq l h
    obtain ⟨m1, pq1, hp, hq⟩ := push_pqueue_spec p h
    obtain ⟨m2, pq2, hp2, hq2⟩ := ih m1 pq1 (l ++ [p]) hq
    exact ⟨m2, pq2, by simp only [push_all, hp, hp2], by simpa using hq2⟩

theorem getLastD_map_getLast (f : Int → Int) (l : List Int) (hne : l ≠ []) (d : Int) :
    (l.map f).getLastD d = f (l.getLast hne) := by
  induction l generalizing d with
  | nil => exact absurd rfl hne
  | cons x xs ih =>
    cases xs with
    | nil => rfl
    | cons y ys =>
      have := ih (by simp) (f x)
      simpa [List.getLastD, List.getLast_cons_cons] using this

/-- C5, counterexample.  The claim promises the sentinel -1 for every status
word of a child that did not exit normally; for the status word 9 (killed by
signal 9) `pop_queue` returns 9. -/
theorem pop_queue_signalled_is_not_sentinel :
    ¬ ∀ (wst : Int → Int) (m : heap) (pq : pqueue) (x : Int) (xs : List Int),
      queue_holds m pq (x :: xs) → WIFEXITED (wst x) = false →
      (pop_queue wst m pq).map (fun res => res.1) = some (-1) := by
  intro h
  have h9 := h (fun _ => 9) one_node_heap one_node_queue 42 [] one_node_queue_holds (by decide)
  revert h9
  decide

/-- C5, amended.  On a queue holding `l`: when `l` is empty `pop_queue` waits
on nothing and returns -1; otherwise it removes the oldest pid `x`, waits on
`x` and on no other pid, and returns the exit code of the status word `w` of
`x` when `w` is a normal exit, and `w` itself, which is then not 0, when it is
not. -/
theorem pop_queue_contract (wst : Int → Int) (m : heap) (pq : pqueue) (l : List Int)
    (h : queue_holds m pq l) :
    (l = [] → pop_queue wst m pq = some (-1, m, pq, [])) ∧
      ∀ x xs, l = x :: xs →
        ∃ m1 pq1,
          pop_queue wst m pq =
            some ((if WIFEXITED (wst x) then WEXITSTATUS (wst x) else wst x), m1, pq1, [x]) ∧
          queue_holds m1 pq1 xs ∧ (WIFEXITED (wst x) = false → wst x ≠ 0) := by
  constructor
  · intro hl
    subst hl
    simp [pop_queue, queue_holds_nil_head h]
  · intro x xs hl
    subst hl
    obtain ⟨m1, pq1, hp, hq, _⟩ := pop_queue_spec wst h
    refine ⟨m1, pq1, hp, hq, ?_⟩
    intro hw h0
    rw [h0] at hw
    revert hw
    decide

/-- C5, witness: the one-node queue with a child killed by signal 9. -/
theorem pop_queue_contract_witness :
    queue_holds one_node_heap one_node_queue [42] ∧
      (([42] : List Int) = [] →
        pop_queue (fun _ => 9) one_node_heap one_node_queue =
          some (-1, one_node_heap, one_node_queue, [])) ∧
      ∀ x xs, ([42] : List Int) = x :: xs →
        ∃ m1 pq1,
          pop_queue (fun _ => 9) one_node_heap one_node_queue =
            some ((if WIFEXITED ((fun _ => 9) x) then WEXITSTATUS ((fun _ => 9) x)
              else (fun _ => 9) x), m1, pq1, [x]) ∧
          queue_holds m1 pq1 xs ∧ (WIFEXITED ((fun _ => (9 : Int)) x) = false →
            (fun _ => (9 : Int)) x ≠ 0) :=
  ⟨one_node_queue_holds,
    pop_queue_contract (fun _ => 9) one_node_heap one_node_queue [42] one_node_queue_holds⟩

/-- C6.  Pushing the pids `hs` (at least one) onto a queue whose head is `NULL`
succeeds and gives a queue holding `hs`; `wait_pqueue` on it waits on exactly
`hs` in push order, returns the translated status of the last pid and leaves
the head `NULL`.  And `push_pqueue` on a queue holding `l` gives a queue
holding `l` followed by the new pid. -/
theorem wait_pqueue_fifo (wst : Int → Int) (m0 : heap) (pq0 : pqueue) (hs : List Int)
    (hempty : pq0.head = none) (hne : hs ≠ []) :
    (∃ m pq, push_all m0 pq0 hs = some (m, pq) ∧ queue_holds m pq hs ∧
        ∃ m1 pq1,
          wait_pqueue wst m pq = some (translate_status (wst (hs.getLast hne)), m1, pq1, hs) ∧
          pq1.head = none) ∧
      ∀ (m : heap) (pq : pqueue) (l : List Int) (pid : Int), queue_holds m pq l →
        ∃ m1 pq1, push_pqueue m pq pid = some (m1, pq1) ∧ queue_holds m1 pq1 (l ++ [pid]) := by
  refine ⟨?_, fun m pq l pid h => push_pqueue_spec pid h⟩
  obtain ⟨m, pq, hp, hq⟩ := push_all_spec hs m0 pq0 [] (queue_holds_of_head_none m0 pq0 hempty)
  simp only [List.nil_append] at hq
  obtain ⟨m1, pq1, hw, hh, _⟩ := wait_pqueue_spec wst hq
  rw [getLastD_map_getLast _ hs hne] at hw
  exact ⟨m, pq, hp, hq, m1, pq1, hw, hh⟩

/-- C6, witness: the pids 5 and 7 pushed onto a new queue in empty memory. -/
theorem wait_pqueue_fifo_witness :
    new_pqueue.head = none ∧ ([5, 7] : List Int) ≠ [] ∧
      ∃ m pq, push_all [] new_pqueue [5, 7] = some (m, pq) ∧ queue_holds m pq [5, 7] ∧
        ∃ m1 pq1,
          wait_pqueue (fun p => 256 * p) m pq = some (7, m1, pq1, [5, 7]) ∧ pq1.head = none :=
  ⟨rfl, by decide, (wait_pqueue_fifo (fun p => 256 * p) [] new_pqueue [5, 7] rfl (by decide)).1⟩

/-! ## Runs of the engine on particular lines -/

/-- C1, the defect.  On the well-formed line `a | b && c | d` the first
pipeline is wired as claimed (`a` writes to pipe 0, `b` reads from it), but the
flag `has_prev` is still set when `c` is reached: the child for `c`, which no
pipe precedes, gets the read end of its own pipe 1 as standard input, the
calling process closes that pipe before `d` is forked, and the child for `d`
is left with the inherited standard input. -/
theorem stale_has_prev_breaks_second_pipeline :
    well_formed two_pipelines.head = true ∧
      (execute_command_line calm_os two_pipelines std_fds).map
          (fun o => (o.status,
            [(stage_launch o.state.log 0).map event.stdout,
             (stage_launch o.state.log 2).map event.stdin,
             (stage_launch o.state.log 4).map event.stdin,
             (stage_launch o.state.log 4).map event.stdout,
             (stage_launch o.state.log 6).map event.stdin])) =
        some (some 0,
          [some (some (file.pipe_write 0)), some (some (file.pipe_read 0)),
           some (some (file.pipe_read 1)), some (some (file.pipe_write 1)),
           some (some (file.inherited 0))]) := by
  decide

/-- C3, the defect.  The line `false` runs the handler once in the calling
process, with result 1 and without a fork, and the invocation returns 0. -/
theorem in_process_builtin_status_is_dropped :
    (execute_command_line calm_os false_line std_fds).map
        (fun o => (o.status, o.state.log.map event.action, o.state.forks)) =
      some (some 0, [action.builtin 0 built_in_command_type.FALSE 1], 0) := by
  decide

/-- C4, the defect.  On `exit 1 2` the handler returns the error code 1 and the
engine ends the program with it; on `exit 7` the program ends with 7. -/
theorem exit_with_two_arguments_ends_the_program :
    builtin_exit calm_os ["exit", "1", "2"] 2 = BUILTIN_COMMAND_ERROR ∧
      (execute_command_line calm_os exit_two_args std_fds).map
          (fun o => (o.exit_code, o.status)) = some (some 1, none) ∧
      (execute_command_line calm_os exit_seven std_fds).map
          (fun o => (o.exit_code, o.status)) = some (some 7, none) := by
  decide

/-- C9, the defect.  After the line `true` the calling process, which had the
descriptors 0, 1 and 2 open, also has 3 and 4 open: the two duplicates made
at the start are never closed. -/
theorem saved_descriptors_are_leaked :
    (execute_command_line calm_os true_line std_fds).map (fun o => (o.status, o.state.fds)) =
      some (some 0, std_fds ++ [some (file.inherited 1), some (file.inherited 0)]) := by
  decide

theorem command_step_queue {os : os_model} {out_file : Int} {pos : Nat} {c : command}
    {next : Option expr} {s s1 : engine_state} {r : Option Int}
    (hq : ∃ l, queue_holds s.mem s.pq l)
    (hstep : command_step os out_file pos c next s = some (s1, r)) :
    ∃ l, queue_holds s1.mem s1.pq l := by
  obtain ⟨l, hl⟩ := hq
  obtain ⟨s2, r2, ev, hs, _, _, _, _, _, _, hcase⟩ :=
    command_step_spec os out_file pos c next hl
  rw [hstep] at hs
  simp only [Option.some.injEq, Prod.mk.injEq] at hs
  obtain ⟨rfl, rfl⟩ := hs
  rcases hcase with ⟨_, _, _, h, _⟩ | ⟨_, _, _, _, _, h, _⟩
  · exact ⟨_, h⟩
  · exact ⟨_, h⟩

theorem open_slot_drain {os : os_model} {s s1 : engine_state} {code : Int} (p : Int)
    (hq : ∃ l, queue_holds s.mem s.pq l) (hp : open_slot p s)
    (hd : drain os s = some (code, s1)) :
    open_slot p s1 ∧ fd_at s1.fds p = fd_at s.fds p := by
  obtain ⟨l, hl⟩ := hq
  obtain ⟨_, _, hf, hh, hpp, _⟩ := drain_queue hl hd
  unfold open_slot
  rw [hf, hh, hpp]
  exact ⟨hp, rfl⟩

theorem walk_keeps_slot (os : os_model) (out_file : Int) (p : Int) (hp1 : p ≠ 1)
    (f : Option file) (es : List expr) {s s1 : engine_state} {r : Option Int}
    (hq : ∃ l, queue_holds s.mem s.pq l) (hp : open_slot p s) (hf : fd_at s.fds p = f)
    (hw : walk os out_file es 0 s = some (s1, r)) :
    (∃ l, queue_holds s1.mem s1.pq l) ∧ open_slot p s1 ∧ fd_at s1.fds p = f := by
  obtain ⟨n, hP, _⟩ := walk_induct os out_file es
    (fun _ t => (∃ l, queue_holds t.mem t.pq l) ∧ open_slot p t ∧ fd_at t.fds p = f)
    (by
      rintro pos c t t1 r1 _ ⟨⟨l, hl⟩, ho, hv⟩ hstep
      obtain ⟨ho1, hv1⟩ := open_slot_step p hl ho hstep
      exact ⟨command_step_queue ⟨l, hl⟩ hstep, ho1, by rw [hv1 hp1, hv]⟩)
    (fun _ _ _ h => h)
    (by
      rintro pos t code t1 _ ⟨hq1, ho, hv⟩ hd
      obtain ⟨l, hl⟩ := hq1
      obtain ⟨ho1, hv1⟩ := open_slot_drain p ⟨l, hl⟩ ho hd
      exact ⟨⟨[], (drain_queue hl hd).1⟩, ho1, by rw [hv1, hv]⟩)
    es 0 s s1 r rfl (Nat.zero_le _) ⟨hq, hp, hf⟩ hw
  exact hP

theorem open_out_file_keeps (os : os_model) (line : command_line) (fds0 : fd_table) {k : Int}
    (h : fd_at fds0 k ≠ none) :
    fd_at (open_out_file os line fds0).1 k = fd_at fds0 k ∧ k ≠ (open_out_file os line fds0).2 := by
  have hneg : k ≠ -1 := by
    intro hk
    subst hk
    exact h (fd_at_neg _ (by omega))
  unfold open_out_file
  cases line.out_type with
  | STDOUT => exact ⟨rfl, hneg⟩
  | FILE_NEW =>
    have hne := sys_open_free os fds0 h
    exact ⟨by rw [fd_at_open]; simp [hne], hne⟩
  | FILE_APPEND =>
    have hne := sys_open_free os fds0 h
    exact ⟨by rw [fd_at_open]; simp [hne], hne⟩

theorem sys_dup_keeps (t : fd_table) (oldfd : Int) {k : Int} (h : fd_at t k ≠ none) :
    fd_at (sys_dup t oldfd).1 k = fd_at t k := by
  rw [fd_at_dup]
  simp [sys_dup_free t oldfd h]

theorem sys_dup_copy (t : fd_table) (oldfd : Int) (h : fd_at t oldfd ≠ none) :
    fd_at (sys_dup t oldfd).1 (sys_dup t oldfd).2 = fd_at t oldfd := by
  rw [fd_at_dup]
  simp [h]

/-- C8.  When descriptors 0 and 1 are open at the call (so that `dup` and
`dup2` succeed), the invocation ends without a fault, and when it returns,
slots 0 and 1 of the calling process refer to the files they referred to at
the call. -/
theorem standard_streams_restored (os : os_model) (line : command_line) (fds0 : fd_table)
    (h0 : fd_at fds0 0 ≠ none) (h1 : fd_at fds0 1 ≠ none) :
    ∃ o, execute_command_line os line fds0 = some o ∧
      ∀ res s, o = outcome.returned res s →
        fd_at s.fds 0 = fd_at fds0 0 ∧ fd_at s.fds 1 = fd_at fds0 1 := by
  obtain ⟨a0, b0⟩ := open_out_file_keeps os line fds0 h0
  obtain ⟨a1, b1⟩ := open_out_file_keeps os line fds0 h1
  unfold execute_command_line start_state
  generalize open_out_file os line fds0 = ofd at a0 a1 b0 b1 ⊢
  obtain ⟨t0, out_file⟩ := ofd
  simp only at a0 a1 b0 b1 ⊢
  have o0 : fd_at t0 0 ≠ none := by rw [a0]; exact h0
  have o1 : fd_at t0 1 ≠ none := by rw [a1]; exact h1
  -- save_out = dup(1)
  have c1 := sys_dup_copy t0 1 o1
  have k0 := sys_dup_keeps t0 1 o0
  have k1 := sys_dup_keeps t0 1 o1
  have n0 := sys_dup_free t0 1 o0
  have n1 := sys_dup_free t0 1 o1
  generalize sys_dup t0 1 = d1 at c1 k0 k1 n0 n1 ⊢
  obtain ⟨t1, save_out⟩ := d1
  simp only at c1 k0 k1 n0 n1 ⊢
  have p0 : fd_at t1 0 ≠ none := by rw [k0]; exact o0
  have p1 : fd_at t1 1 ≠ none := by rw [k1]; exact o1
  have pso : fd_at t1 save_out ≠ none := by rw [c1]; exact o1
  -- save_in = dup(0)
  have e0 := sys_dup_copy t1 0 p0
  have ek1 := sys_dup_keeps t1 0 p1
  have ekso := sys_dup_keeps t1 0 pso
  have m0 := sys_dup_free t1 0 p0
  have m1 := sys_dup_free t1 0 p1
  have mso := sys_dup_free t1 0 pso
  generalize sys_dup t1 0 = d2 at e0 ek1 ekso m0 m1 mso ⊢
  obtain ⟨t2, save_in⟩ := d2
  simp only at e0 ek1 ekso m0 m1 mso ⊢
  have vso : fd_at t2 save_out = fd_at fds0 1 := by rw [ekso, c1, a1]
  have vsi : fd_at t2 save_in = fd_at fds0 0 := by rw [e0, k0, a0]
  obtain ⟨s, r, hw, hq⟩ := walk_total os out_file line.head 0
    (engine_state.mk t2 [] new_pqueue false (0, 0) 0 0 [])
    ⟨[], queue_holds_new []⟩
  have hinit : ∃ l, queue_holds (engine_state.mk t2 [] new_pqueue false (0, 0) 0 0 []).mem
      (engine_state.mk t2 [] new_pqueue false (0, 0) 0 0 []).pq l := ⟨[], queue_holds_new []⟩
  obtain ⟨_, _, wso⟩ := walk_keeps_slot os out_file save_out (Ne.symm n1) _ line.head hinit
    ⟨by rw [vso]; exact h1, fun h => by cases h⟩ vso hw
  obtain ⟨_, _, wsi⟩ := walk_keeps_slot os out_file save_in (Ne.symm m1) _ line.head hinit
    ⟨by rw [vsi]; exact h0, fun h => by cases h⟩ vsi hw
  rw [hw]
  cases r with
  | some code => exact ⟨_, rfl, fun res s2 h => by cases h⟩
  | none =>
    obtain ⟨l, hl⟩ := hq
    obtain ⟨s1, hd, _, _, hfd, _⟩ := drain_spec os hl
    simp only [hd]
    refine ⟨_, rfl, ?_⟩
    intro res s2 hres
    simp only [outcome.returned.injEq] at hres
    obtain ⟨_, rfl⟩ := hres
    simp only
    rw [hfd]
    have hso1 : fd_at s.fds save_out ≠ none := by rw [wso]; exact h1
    have hsi3 : fd_at (sys_dup2 s.fds save_out 1) save_in = fd_at fds0 0 := by
      rw [fd_at_dup2]
      have : ¬ (save_in = ((1 : Nat) : Int) ∧ fd_at s.fds save_out ≠ none) :=
        fun hc => m1 (by simpa using hc.1.symm)
      rw [if_neg this, wsi]
    have r0 : fd_at (sys_dup2 (sys_dup2 s.fds save_out 1) save_in 0) 0 = fd_at fds0 0 := by
      rw [fd_at_dup2, hsi3]
      simp [h0]
    have r1 : fd_at (sys_dup2 (sys_dup2 s.fds save_out 1) save_in 0) 1 = fd_at fds0 1 := by
      rw [fd_at_dup2, hsi3]
      have : ¬ ((1 : Int) = ((0 : Nat) : Int) ∧ fd_at fds0 0 ≠ none) := fun hc => by
        simp at hc
      rw [if_neg this, fd_at_dup2]
      have hyes : (1 : Int) = ((1 : Nat) : Int) ∧ fd_at s.fds save_out ≠ none := ⟨rfl, hso1⟩
      rw [if_pos hyes, wso]
    by_cases ho : out_file = -1
    · simp only [ho, ne_eq, not_true_eq_false, if_false]
      exact ⟨r0, r1⟩
    · simp only [ne_eq, ho, not_false_eq_true, if_true, fd_at_close]
      rw [if_neg b0, if_neg b1]
      exact ⟨r0, r1⟩

/-- C8, witness: the line `a | b && c | d` run with descriptors 0, 1, 2 open. -/
theorem standard_streams_restored_witness :
    fd_at std_fds 0 ≠ none ∧ fd_at std_fds 1 ≠ none ∧
      ∃ o, execute_command_line calm_os two_pipelines std_fds = some o ∧
        ∀ res s, o = outcome.returned res s →
          fd_at s.fds 0 = fd_at std_fds 0 ∧ fd_at s.fds 1 = fd_at std_fds 1 :=
  ⟨by decide, by decide,
    standard_streams_restored calm_os two_pipelines std_fds (by decide) (by decide)⟩

/-! ## Redirection: claim C2 -/

theorem execute_of_walk {os : os_model} {line : command_line} {fds0 : fd_table}
    {s : engine_state} {l : List Int}
    (hw : walk os (open_out_file os line fds0).2 line.head 0 (start_state os line fds0) =
      some (s, none))
    (hq : queue_holds s.mem s.pq l) :
    ∃ s1, execute_command_line os line fds0 =
        some (outcome.returned
          ((l.map (fun p => translate_status (os.wait_status p))).getLastD 0) s1) ∧
      s1.log = s.log ++ l.map event.wait ∧ s1.pq.head = none ∧ s1.forks = s.forks := by
  obtain ⟨s2, hd, hlog, hh, _, _, _, _, hfk⟩ := drain_spec os hq
  simp only [execute_command_line, hw, hd]
  exact ⟨_, rfl, hlog, hh, hfk⟩

theorem range_succ_map {α : Type} (f : Nat → α) (n : Nat) :
    (List.range (n + 1)).map f = f 0 :: (List.range n).map (fun i => f (i + 1)) := by
  rw [List.range_succ_eq_map]
  simp [List.map_map, Function.comp_def]

theorem walk_pipeline (os : os_model) (out_file : Int) :
    ∀ (cmds : List command) (pos : Nat) (s : engine_state) (l : List Int), cmds ≠ [] →
      queue_holds s.mem s.pq l → (s.has_prev = true ∨ 2 ≤ cmds.length) →
      ∃ s1, walk os out_file (pipeline cmds) pos s = some (s1, none) ∧
        queue_holds s1.mem s1.pq
          (l ++ (List.range cmds.length).map (fun i => os.fork_pid (s.forks + i))) ∧
        s1.log.map event.action = s.log.map event.action ++
          (List.range cmds.length).map
            (fun i => action.fork (pos + 2 * i) (os.fork_pid (s.forks + i))) ∧
        s1.forks = s.forks + cmds.length := by
  intro cmds
  induction cmds with
  | nil => intro pos s l h; exact absurd rfl h
  | cons c rest ih =>
    intro pos s l _ hq hor
    cases rest with
    | nil =>
      have hp : s.has_prev = true := by
        rcases hor with h | h
        · exact h
        · simp at h
      obtain ⟨s1, r, ev, hs, hlog, _, _, _, _, _, hcase⟩ :=
        command_step_spec os out_file pos c none hq
      rcases hcase with ⟨hr, hev, _, hq1, hf1⟩ | ⟨_, hcontra, _⟩
      · subst hr
        refine ⟨s1, by simp [pipeline, walk, hs], by simpa using hq1, ?_, by simpa using hf1⟩
        rw [hlog, hev]
        simp [event.action, List.range_succ]
      · rw [hp] at hcontra
        cases hcontra
    | cons d rest2 =>
      obtain ⟨s1, r, ev, hs, hlog, _, _, _, hhp, _, hcase⟩ :=
        command_step_spec os out_file pos c (some expr.PIPE) hq
      have hwp : will_pipe_of (some expr.PIPE) = true := by simp [will_pipe_of]
      rw [hwp] at hcase hhp
      rcases hcase with ⟨hr, hev, _, hq1, hf1⟩ | ⟨hcontra, _⟩
      · subst hr
        obtain ⟨s2, hw2, hq2, hlog2, hf2⟩ :=
          ih (pos + 1 + 1) s1 (l ++ [os.fork_pid s.forks]) (by simp) hq1
            (Or.inl (by rw [hhp]; rfl))
        refine ⟨s2, ?_, ?_, ?_, ?_⟩
        · simp only [pipeline, walk, List.head?_cons, hs]
          exact hw2
        · rw [hf1] at hq2
          rw [List.length_cons, range_succ_map]
          simpa [Nat.add_assoc, Nat.add_comm 1] using hq2
        · rw [hlog2, hlog, hev, hf1, List.length_cons (a := c), range_succ_map]
          simp [event.action, Nat.add_assoc, Nat.add_comm 1, Nat.mul_add, Nat.add_left_comm]
          intro a _
          omega
        · rw [hf2, hf1]
          simp
          omega
      · cases hcontra

theorem getLast_map_range (f : Nat → Int) (n : Nat) (h : (List.range (n + 1)).map f ≠ []) :
    ((List.range (n + 1)).map f).getLast h = f n := by
  simp [List.range_succ]

theorem map_wait_action (l : List Int) :
    (l.map event.wait).map event.action = l.map action.wait := by
  simp [List.map_map, Function.comp_def, event.action]

/-- C7.  For a line that is one pipeline of `n >= 2` commands, whatever its
target: the loop ends with the queue holding the pids of the forks `0, 1, ..`
in fork order; the invocation returns; its log is `n` forks, for the positions
`0, 2, ..` in this order with those pids, followed by the waits on the `n`
pids in the same order; no builtin runs in the calling process; the queue is
empty at the end; and the status returned is the translated status word of
the child forked last. -/
theorem pipeline_forks_each_stage_and_waits_in_order (os : os_model) (cmds : List command)
    (out_type : output_type) (out_file : String) (fds0 : fd_table) (hn : 2 ≤ cmds.length) :
    ∃ s_loop s,
      walk os (open_out_file os ⟨pipeline cmds, out_type, out_file⟩ fds0).2 (pipeline cmds) 0
          (start_state os ⟨pipeline cmds, out_type, out_file⟩ fds0) = some (s_loop, none) ∧
      queue_holds s_loop.mem s_loop.pq ((List.range cmds.length).map os.fork_pid) ∧
      execute_command_line os ⟨pipeline cmds, out_type, out_file⟩ fds0 =
        some (outcome.returned
          (translate_status (os.wait_status (os.fork_pid (cmds.length - 1)))) s) ∧
      s.log.map event.action =
        (List.range cmds.length).map (fun i => action.fork (2 * i) (os.fork_pid i)) ++
          (List.range cmds.length).map (fun i => action.wait (os.fork_pid i)) ∧
      s.forks = cmds.length ∧ s.pq.head = none := by
  have hne : cmds ≠ [] := by
    intro h; subst h; simp at hn
  obtain ⟨s, hw, hq, hlog, hf⟩ := walk_pipeline os
    (open_out_file os ⟨pipeline cmds, out_type, out_file⟩ fds0).2 cmds 0
    (start_state os ⟨pipeline cmds, out_type, out_file⟩ fds0)
    [] hne (queue_holds_new []) (Or.inr hn)
  simp only [List.nil_append, start_state, Nat.zero_add, List.map_nil] at hq hlog hf
  obtain ⟨s1, he, hlog1, hh, hf1⟩ :=
    @execute_of_walk os ⟨pipeline cmds, out_type, out_file⟩ fds0 s _ hw hq
  obtain ⟨m, hm⟩ : ∃ m, cmds.length = m + 1 := ⟨cmds.length - 1, by omega⟩
  refine ⟨s, s1, hw, hq, ?_, ?_, by rw [hf1, hf], hh⟩
  · rw [he]
    have hnn : (List.range cmds.length).map (fun i => os.fork_pid i) ≠ [] := by
      rw [hm]; simp
    rw [getLastD_map_getLast _ _ hnn]
    simp only [hm, Nat.add_sub_cancel, getLast_map_range]
  · rw [hlog1, List.map_append, hlog, map_wait_action]
    simp [List.map_map, Function.comp_def]

/-- C7, witness: the pipeline `a | false | b`. -/
theorem pipeline_forks_each_stage_and_waits_in_order_witness :
    2 ≤ three_stage_pipeline.length ∧
      ∃ s_loop s,
        walk calm_os
            (open_out_file calm_os ⟨pipeline three_stage_pipeline, output_type.STDOUT, ""⟩
              std_fds).2 (pipeline three_stage_pipeline) 0
            (start_state calm_os ⟨pipeline three_stage_pipeline, output_type.STDOUT, ""⟩
              std_fds) = some (s_loop, none) ∧
        queue_holds s_loop.mem s_loop.pq
          ((List.range three_stage_pipeline.length).map calm_os.fork_pid) ∧
        execute_command_line calm_os ⟨pipeline three_stage_pipeline, output_type.STDOUT, ""⟩
            std_fds =
          some (outcome.returned
            (translate_status (calm_os.wait_status
              (calm_os.fork_pid (three_stage_pipeline.length - 1)))) s) ∧
        s.log.map event.action =
          (List.range three_stage_pipeline.length).map
              (fun i => action.fork (2 * i) (calm_os.fork_pid i)) ++
            (List.range three_stage_pipeline.length).map
              (fun i => action.wait (calm_os.fork_pid i)) ∧
        s.forks = three_stage_pipeline.length ∧ s.pq.head = none :=
  ⟨by decide,
    pipeline_forks_each_stage_and_waits_in_order calm_os three_stage_pipeline
      output_type.STDOUT "" std_fds (by decide)⟩

end Shell
